import Mathlib

/-!
Shallow embedding of the chat-renderer scheduling core
(`src/batcher.js`, `src/chat-state.js`, `src/frame-scheduler.js`,
`config.js`).  JavaScript numbers are modelled as rationals; at every
concrete input used below the double-precision computation of the source
agrees exactly with the rational value.
-/

namespace ChatRenderer

/-! ### Configuration (`config.js`) -/

def FRAMERATE : ℚ := 30
def BATCH_WINDOW_MS : ℚ := 500
def BATCH_MAX_MESSAGES : Nat := 12
def MAX_VISIBLE_LINES : ℤ := 27
def OUTPUT_WIDTH : ℚ := 400
def HORIZONTAL_PADDING_PX : ℚ := 12
def FONT_SIZE_PX : ℚ := 16

/-! ### Data model (message schema documented in `batcher.js`) -/

inductive MsgType where
  | chat
  | superchat
  | bits
  | membership
  | gift
  | deleted
deriving DecidableEq, Repr

inductive Segment where
  | text (value : String)
  | emoji (id name : String)
deriving DecidableEq, Repr

structure Author where
  id : String
  name : String
  color : Option String
  badges : List String
deriving DecidableEq, Repr

structure Content where
  raw : String
  segments : List Segment
deriving DecidableEq, Repr

structure Msg where
  id : String
  timestamp_ms : ℚ
  type : MsgType
  author : Option Author
  content : Option Content
deriving DecidableEq, Repr

/-! ### `MessageBatcher` (`src/batcher.js`) -/

structure MessageBatcher where
  messages : List Msg
  currentIndex : Nat
deriving DecidableEq, Repr

/-- `new MessageBatcher(messages)`: read cursor starts at 0. -/
def MessageBatcher.make (msgs : List Msg) : MessageBatcher := ⟨msgs, 0⟩

/-- The `while` loop body of `getNextBatch`, acting on the messages from the
cursor onward.  `cap` is `BATCH_MAX_MESSAGES - batch.length`: the source
pushes the message first and then breaks when `batch.length >= BATCH_MAX_MESSAGES`,
i.e. when the remaining capacity before the push was at most 1. -/
def takeBatch : List Msg → ℚ → Nat → List Msg
  | [], _, _ => []
  | m :: rest, windowEnd, cap =>
    if m.timestamp_ms > windowEnd then []
    else if cap ≤ 1 then [m]
    else m :: takeBatch rest windowEnd (cap - 1)

/-- `getNextBatch(currentTimeMs)`: returns the batch, `nextBatchTimeMs`
(`null` modelled as `none`) and the batcher with its advanced cursor. -/
def MessageBatcher.getNextBatch (b : MessageBatcher) (currentTimeMs : ℚ) :
    List Msg × Option ℚ × MessageBatcher :=
  let windowEnd := currentTimeMs + BATCH_WINDOW_MS
  let batch := takeBatch (b.messages.drop b.currentIndex) windowEnd BATCH_MAX_MESSAGES
  let newIndex := b.currentIndex + batch.length
  (batch, ((b.messages.drop newIndex).head?).map Msg.timestamp_ms,
   ⟨b.messages, newIndex⟩)

/-- `get streamDurationMs()`: last message's timestamp, 0 when empty. -/
def MessageBatcher.streamDurationMs (b : MessageBatcher) : ℚ :=
  match b.messages.getLast? with
  | none => 0
  | some m => m.timestamp_ms

/-- Folding a sequence of `getNextBatch` calls: returns the list of batches
and the final batcher state. -/
def runBatches (b : MessageBatcher) : List ℚ → List (List Msg) × MessageBatcher
  | [] => ([], b)
  | t :: ts =>
    let r := b.getNextBatch t
    let rest := runBatches r.2.2 ts
    (r.1 :: rest.1, rest.2)

/-! ### `ChatState` (`src/chat-state.js`) -/

/-- Default `containerWidth` of `calculateMessageLines`:
`config.OUTPUT_WIDTH - (config.HORIZONTAL_PADDING_PX * 2)` = 376. -/
def defaultContainerWidth : ℚ := OUTPUT_WIDTH - HORIZONTAL_PADDING_PX * 2

def AVG_CHAR_WIDTH_PX : ℚ := FONT_SIZE_PX * 0.55
def BADGE_WIDTH_PX : ℚ := FONT_SIZE_PX + 4
def EMOJI_WIDTH_PX : ℚ := FONT_SIZE_PX + 2

/-- Width contribution of one content segment. -/
def segmentWidth : Segment → ℚ
  | .text v => v.length * AVG_CHAR_WIDTH_PX
  | .emoji _ _ => EMOJI_WIDTH_PX

/-- The `contentWidth` accumulator of `calculateMessageLines`.  The source
guards each part with truthiness tests: a missing `author`/`content`
contributes 0, and an empty author name (falsy `""`) skips the
username-plus-colon term. -/
def contentWidth (m : Msg) : ℚ :=
  (match m.author with
   | some a => a.badges.length * BADGE_WIDTH_PX
   | none => 0)
  + (match m.author with
     | some a => if a.name.length = 0 then 0 else (a.name.length + 2) * AVG_CHAR_WIDTH_PX
     | none => 0)
  + (match m.content with
     | some c => (c.segments.map segmentWidth).sum
     | none => 0)
  + (if m.type = .superchat ∨ m.type = .bits then 100 else 0)

/-- `calculateMessageLines(message, containerWidth)`:
`Math.max(1, Math.ceil(contentWidth / containerWidth))`. -/
def calculateMessageLines (m : Msg) (containerWidth : ℚ) : ℤ :=
  max 1 ⌈contentWidth m / containerWidth⌉

/-- The buffer entry `{...msg, _lineCount}` with the later `_deleted` flag. -/
structure VisibleEntry where
  msg : Msg
  lineCount : ℤ
  deleted : Bool
deriving DecidableEq, Repr

structure ChatState where
  visibleMessages : List VisibleEntry
  totalLineCount : ℤ
deriving DecidableEq, Repr

/-- `new ChatState()`. -/
def ChatState.init : ChatState := ⟨[], 0⟩

/-- The `for` loop of `addMessages`: push each entry, add its line count. -/
def pushMessages (s : ChatState) (msgs : List Msg) : ChatState :=
  msgs.foldl
    (fun st m =>
      let lc := calculateMessageLines m defaultContainerWidth
      ⟨st.visibleMessages ++ [⟨m, lc, false⟩], st.totalLineCount + lc⟩)
    s

/-- `_trimOverflow`: `while (totalLineCount > MAX_VISIBLE_LINES &&
visibleMessages.length > 0) shift`. -/
def trimOverflow : List VisibleEntry → ℤ → List VisibleEntry × ℤ
  | [], total => ([], total)
  | e :: rest, total =>
    if total > MAX_VISIBLE_LINES then trimOverflow rest (total - e.lineCount)
    else (e :: rest, total)

/-- `addMessages(messages)`. -/
def ChatState.addMessages (s : ChatState) (msgs : List Msg) : ChatState :=
  let s1 := pushMessages s msgs
  let r := trimOverflow s1.visibleMessages s1.totalLineCount
  ⟨r.1, r.2⟩

/-- `markDeleted`'s `find` sets `_deleted` on the first entry whose `id`
matches; the list is otherwise untouched. -/
def markFirstDeleted : List VisibleEntry → String → List VisibleEntry
  | [], _ => []
  | e :: rest, mid =>
    if e.msg.id = mid then { e with deleted := true } :: rest
    else e :: markFirstDeleted rest mid

/-- `markDeleted(messageId)`. -/
def ChatState.markDeleted (s : ChatState) (messageId : String) : ChatState :=
  { s with visibleMessages := markFirstDeleted s.visibleMessages messageId }

/-- `getVisibleMessages()`: a pure query. -/
def ChatState.getVisibleMessages (s : ChatState) : List VisibleEntry :=
  s.visibleMessages

/-- `getState()`: a pure query returning `(messages, totalLines, maxLines)`. -/
def ChatState.getState (s : ChatState) : List VisibleEntry × ℤ × ℤ :=
  (s.visibleMessages, s.totalLineCount, MAX_VISIBLE_LINES)

/-- `clear()`. -/
def ChatState.clear (_ : ChatState) : ChatState := ChatState.init

/-- The public mutating calls on `ChatState` (the queries
`getVisibleMessages`/`getState` do not touch the state). -/
inductive ChatOp where
  | add (batch : List Msg)
  | markDel (id : String)
  | clear
deriving DecidableEq, Repr

def execChatOp (s : ChatState) : ChatOp → ChatState
  | .add b => s.addMessages b
  | .markDel i => s.markDeleted i
  | .clear => s.clear

def execChatOps (s : ChatState) (ops : List ChatOp) : ChatState :=
  ops.foldl execChatOp s

/-- Sum of the stored per-entry line counts of the visible sequence. -/
def sumLines (s : ChatState) : ℤ :=
  (s.visibleMessages.map VisibleEntry.lineCount).sum

/-- Entries of a state have line count at least 1 and the running total is
the sum of stored line counts: preserved by every public mutator. -/
def StateOK (s : ChatState) : Prop :=
  s.totalLineCount = sumLines s ∧ ∀ e ∈ s.visibleMessages, 1 ≤ e.lineCount

/-! ### `FrameScheduler` (`src/frame-scheduler.js`) -/

structure FrameScheduler where
  streamDurationMs : ℚ
  totalFrames : ℤ
  currentFrame : ℤ
deriving DecidableEq, Repr

/-- `1000 / config.FRAMERATE`. -/
def frameDurationMs : ℚ := 1000 / FRAMERATE

/-- `new FrameScheduler(streamDurationMs)`:
`totalFrames = Math.ceil(streamDurationMs / frameDurationMs)`, cursor 0. -/
def FrameScheduler.make (d : ℚ) : FrameScheduler :=
  ⟨d, ⌈d / frameDurationMs⌉, 0⟩

/-- `getCurrentTimeMs()` = `currentFrame * frameDurationMs`. -/
def FrameScheduler.getCurrentTimeMs (s : FrameScheduler) : ℚ :=
  s.currentFrame * frameDurationMs

/-- `advance()`: increments the cursor with no clamp. -/
def FrameScheduler.advance (s : FrameScheduler) : FrameScheduler :=
  { s with currentFrame := s.currentFrame + 1 }

/-- `getFrameCountUntil(nextEventTimeMs)` (`null` modelled as `none`). -/
def FrameScheduler.getFrameCountUntil (s : FrameScheduler) (next : Option ℚ) : ℤ :=
  match next with
  | none => s.totalFrames - s.currentFrame
  | some t =>
    min (max 1 ⌊(t - s.getCurrentTimeMs) / frameDurationMs⌋)
      (s.totalFrames - s.currentFrame)

/-- `skipFrames(count)`: `currentFrame = min(currentFrame + count, totalFrames)`. -/
def FrameScheduler.skipFrames (s : FrameScheduler) (count : ℤ) : FrameScheduler :=
  { s with currentFrame := min (s.currentFrame + count) s.totalFrames }

/-- `isDone()`: `currentFrame >= totalFrames`. -/
def FrameScheduler.isDone (s : FrameScheduler) : Bool :=
  s.totalFrames ≤ s.currentFrame

/-- The state-changing calls on `FrameScheduler`. -/
inductive SchedOp where
  | advance
  | skip (count : ℤ)
deriving DecidableEq, Repr

def execSchedOp (s : FrameScheduler) : SchedOp → FrameScheduler
  | .advance => s.advance
  | .skip c => s.skipFrames c

def execSchedOps (s : FrameScheduler) (ops : List SchedOp) : FrameScheduler :=
  ops.foldl execSchedOp s

/-- Every `skip` in the sequence carries a non-negative count. -/
def nonNegSkips (ops : List SchedOp) : Prop :=
  ∀ c : ℤ, SchedOp.skip c ∈ ops → 0 ≤ c

/-- The sequence contains no `advance` call. -/
def skipsOnly (ops : List SchedOp) : Prop :=
  SchedOp.advance ∉ ops

/-! ### Concrete inputs used in the scenario claims -/

/-- Plain chat message at t = 0 (scenario of §8 of the spec). -/
def msgA : Msg :=
  { id := "a", timestamp_ms := 0, type := .chat, author := none, content := none }

/-- Plain chat message at t = 400. -/
def msgB : Msg :=
  { id := "b", timestamp_ms := 400, type := .chat, author := none, content := none }

/-- Plain chat message at t = 1200. -/
def msgC : Msg :=
  { id := "c", timestamp_ms := 1200, type := .chat, author := none, content := none }

def scenarioMsgs : List Msg := [msgA, msgB, msgC]

/-- A message whose line footprint alone exceeds `MAX_VISIBLE_LINES`:
508 badges contribute `508 * 20 = 10160` px and the author name `"x"`
contributes `3 * 8.8 = 26.4` px, so `contentWidth = 10186.4` and
`ceil(10186.4 / 376) = 28 > 27` lines. -/
def bigMsg : Msg :=
  { id := "big", timestamp_ms := 0, type := .chat,
    author := some { id := "u", name := "x", color := none,
                     badges := List.replicate 508 "b" },
    content := none }

/-- A message with author and content, used to exercise the estimator's
monotonicity at a concrete input. -/
def richMsg : Msg :=
  { id := "rich", timestamp_ms := 0, type := .chat,
    author := some { id := "u2", name := "alice", color := none, badges := ["mod"] },
    content := some { raw := "hi world", segments := [.text "hi world", .emoji "e1" "wave"] } }

/-! ## Helper lemmas: `ChatState` -/

theorem markFirstDeleted_map_lineCount (es : List VisibleEntry) (i : String) :
    (markFirstDeleted es i).map VisibleEntry.lineCount = es.map VisibleEntry.lineCount := by
  induction es with
  | nil => rfl
  | cons e rest ih =>
    by_cases h : e.msg.id = i <;> simp [markFirstDeleted, h, ih]

theorem markFirstDeleted_of_absent (es : List VisibleEntry) (i : String)
    (h : ∀ e ∈ es, e.msg.id ≠ i) : markFirstDeleted es i = es := by
  induction es with
  | nil => rfl
  | cons e rest ih =>
    have he : e.msg.id ≠ i := h e (by simp)
    simp only [markFirstDeleted, if_neg he]
    rw [ih fun x hx => h x (by simp [hx])]

theorem pushMessages_spec (msgs : List Msg) (s : ChatState) :
    pushMessages s msgs =
      ⟨s.visibleMessages ++
         msgs.map (fun m => ⟨m, calculateMessageLines m defaultContainerWidth, false⟩),
       s.totalLineCount +
         (msgs.map (fun m => calculateMessageLines m defaultContainerWidth)).sum⟩ := by
  induction msgs generalizing s with
  | nil => simp [pushMessages]
  | cons m rest ih =>
    show pushMessages ⟨s.visibleMessages ++ [_], s.totalLineCount + _⟩ rest = _
    rw [ih]
    simp [add_assoc]

theorem trimOverflow_sum (es : List VisibleEntry) (total : ℤ)
    (h : total = (es.map VisibleEntry.lineCount).sum) :
    (trimOverflow es total).2 = ((trimOverflow es total).1.map VisibleEntry.lineCount).sum := by
  induction es generalizing total with
  | nil => simpa [trimOverflow] using h
  | cons e rest ih =>
    by_cases hgt : total > MAX_VISIBLE_LINES
    · simp only [trimOverflow, if_pos hgt]
      exact ih _ (by simp at h; omega)
    · simp only [trimOverflow, if_neg hgt]
      exact h

theorem trimOverflow_le (es : List VisibleEntry) (total : ℤ)
    (h : total = (es.map VisibleEntry.lineCount).sum) :
    (trimOverflow es total).2 ≤ MAX_VISIBLE_LINES := by
  induction es generalizing total with
  | nil =>
    simp only [List.map_nil, List.sum_nil] at h
    simpa [trimOverflow, h, MAX_VISIBLE_LINES] using by norm_num
  | cons e rest ih =>
    by_cases hgt : total > MAX_VISIBLE_LINES
    · simp only [trimOverflow, if_pos hgt]
      exact ih _ (by simp at h; omega)
    · simp only [trimOverflow, if_neg hgt]
      omega

theorem trimOverflow_mem (es : List VisibleEntry) (total : ℤ) (e : VisibleEntry)
    (h : e ∈ (trimOverflow es total).1) : e ∈ es := by
  induction es generalizing total with
  | nil => simpa [trimOverflow] using h
  | cons a rest ih =>
    by_cases hgt : total > MAX_VISIBLE_LINES
    · simp only [trimOverflow, if_pos hgt] at h
      exact List.mem_cons_of_mem a (ih _ h)
    · simpa only [trimOverflow, if_neg hgt] using h

theorem trimOverflow_oversize (es : List VisibleEntry) (e : VisibleEntry)
    (h0 : ∀ x ∈ es, 0 ≤ x.lineCount) (hbig : MAX_VISIBLE_LINES < e.lineCount)
    (total : ℤ) (ht : total = ((es ++ [e]).map VisibleEntry.lineCount).sum) :
    (trimOverflow (es ++ [e]) total).1 = [] := by
  induction es generalizing total with
  | nil =>
    simp only [List.nil_append, List.map_cons, List.map_nil, List.sum_cons,
      List.sum_nil, add_zero] at ht
    simp [trimOverflow, ht, hbig]
  | cons a rest ih =>
    have hsumrest : 0 ≤ ((rest.map VisibleEntry.lineCount).sum) :=
      List.sum_nonneg (by
        intro x hx
        obtain ⟨y, hy, rfl⟩ := List.mem_map.mp hx
        exact h0 y (List.mem_cons_of_mem a hy))
    have ha : 0 ≤ a.lineCount := h0 a (by simp)
    have hgt : total > MAX_VISIBLE_LINES := by
      simp only [List.cons_append, List.map_cons, List.sum_cons, List.map_append,
        List.map_cons, List.map_nil, List.sum_append, List.sum_cons, List.sum_nil,
        add_zero] at ht
      omega
    simp only [List.cons_append, trimOverflow, if_pos hgt]
    refine ih (fun x hx => h0 x (List.mem_cons_of_mem a hx)) _ ?_
    simp only [List.cons_append, List.map_cons, List.sum_cons] at ht
    omega

theorem calculateMessageLines_ge_one (m : Msg) (w : ℚ) :
    1 ≤ calculateMessageLines m w :=
  le_max_left _ _

theorem stateOK_init : StateOK ChatState.init := by
  constructor <;> simp [ChatState.init, sumLines]

theorem stateOK_addMessages (s : ChatState) (msgs : List Msg) (h : StateOK s) :
    StateOK (s.addMessages msgs) := by
  obtain ⟨hsum, hpos⟩ := h
  have hpush := pushMessages_spec msgs s
  have hts : (pushMessages s msgs).totalLineCount =
      ((pushMessages s msgs).visibleMessages.map VisibleEntry.lineCount).sum := by
    rw [hpush]
    simp only [List.map_append, List.sum_append, List.map_map]
    rw [hsum]
    show sumLines s + _ = sumLines s + _
    rfl
  constructor
  · show (trimOverflow _ _).2 = sumLines _
    simpa [sumLines, ChatState.addMessages] using
      trimOverflow_sum (pushMessages s msgs).visibleMessages
        (pushMessages s msgs).totalLineCount hts
  · intro e he
    simp only [ChatState.addMessages] at he
    have := trimOverflow_mem _ _ _ he
    rw [hpush] at this
    rcases List.mem_append.mp this with h1 | h2
    · exact hpos e h1
    · obtain ⟨m, _, rfl⟩ := List.mem_map.mp h2
      exact calculateMessageLines_ge_one m _

theorem stateOK_markDeleted (s : ChatState) (i : String) (h : StateOK s) :
    StateOK (s.markDeleted i) := by
  obtain ⟨hsum, hpos⟩ := h
  constructor
  · show s.totalLineCount = sumLines _
    rw [hsum]
    simp [sumLines, ChatState.markDeleted, markFirstDeleted_map_lineCount]
  · intro e he
    simp only [ChatState.markDeleted] at he
    have : e.lineCount ∈ (markFirstDeleted s.visibleMessages i).map VisibleEntry.lineCount :=
      List.mem_map_of_mem _ he
    rw [markFirstDeleted_map_lineCount] at this
    obtain ⟨y, hy, hly⟩ := List.mem_map.mp this
    rw [← hly]
    exact hpos y hy

theorem stateOK_exec (s : ChatState) (op : ChatOp) (h : StateOK s) :
    StateOK (execChatOp s op) := by
  cases op with
  | add b => exact stateOK_addMessages s b h
  | markDel i => exact stateOK_markDeleted s i h
  | clear => exact stateOK_init

theorem stateOK_execs (ops : List ChatOp) :
    StateOK (execChatOps ChatState.init ops) := by
  suffices h : ∀ s, StateOK s → StateOK (execChatOps s ops) from h _ stateOK_init
  induction ops with
  | nil => exact fun s hs => hs
  | cons op rest ih => exact fun s hs => ih _ (stateOK_exec s op hs)

theorem addMessages_sum_le (s : ChatState) (msgs : List Msg) (h : StateOK s) :
    sumLines (s.addMessages msgs) ≤ MAX_VISIBLE_LINES := by
  obtain ⟨hsum, _⟩ := h
  have hpush := pushMessages_spec msgs s
  have hts : (pushMessages s msgs).totalLineCount =
      ((pushMessages s msgs).visibleMessages.map VisibleEntry.lineCount).sum := by
    rw [hpush]
    simp only [List.map_append, List.sum_append, List.map_map]
    rw [hsum]
    show sumLines s + _ = sumLines s + _
    rfl
  have h1 := trimOverflow_le (pushMessages s msgs).visibleMessages
    (pushMessages s msgs).totalLineCount hts
  have h2 := trimOverflow_sum (pushMessages s msgs).visibleMessages
    (pushMessages s msgs).totalLineCount hts
  show (((trimOverflow _ _).1).map VisibleEntry.lineCount).sum ≤ MAX_VISIBLE_LINES
  omega

/-- Concrete footprint of `bigMsg`: `508 * 20 + (1 + 2) * 8.8 = 10186.4` px. -/
theorem bigMsg_contentWidth : contentWidth bigMsg = 50932 / 5 := by
  have hx : "x".length = 1 := rfl
  simp only [contentWidth, bigMsg, List.length_replicate, hx]
  rw [if_neg (by norm_num), if_neg (by decide)]
  norm_num [BADGE_WIDTH_PX, AVG_CHAR_WIDTH_PX, FONT_SIZE_PX]

/-- `bigMsg` occupies `ceil(10186.4 / 376) = 28` lines, one more than the
27-line budget. -/
theorem bigMsg_lineCount : calculateMessageLines bigMsg defaultContainerWidth = 28 := by
  have hc : ⌈((50932 : ℚ) / 5) / (400 - 12 * 2)⌉ = 28 := by
    rw [Int.ceil_eq_iff] <;> norm_num
  simp only [calculateMessageLines, bigMsg_contentWidth, defaultContainerWidth,
    OUTPUT_WIDTH, HORIZONTAL_PADDING_PX, hc]
  norm_num

/-! ## Claim theorems: `ChatState` -/

/-- C1 — counterexample.  A single ingested message whose own line count (28)
exceeds `MAX_VISIBLE_LINES` (27) is itself evicted by `_trimOverflow`, leaving
the buffer EMPTY, contrary to the claim that eviction stops at that entry and
leaves the buffer non-empty. -/
theorem C1_counterexample :
    MAX_VISIBLE_LINES < calculateMessageLines bigMsg defaultContainerWidth ∧
    (ChatState.init.addMessages [bigMsg]).visibleMessages = [] := by
  refine ⟨by rw [bigMsg_lineCount]; norm_num [MAX_VISIBLE_LINES], ?_⟩
  simp only [ChatState.addMessages, pushMessages, List.foldl, ChatState.init,
    bigMsg_lineCount]
  norm_num [trimOverflow, MAX_VISIBLE_LINES]

/-- C1 — amended.  After every `addMessages` call the sum of the visible
entries' line counts is at most `MAX_VISIBLE_LINES`, with no exception: when a
single incoming entry's line count alone exceeds the budget, `_trimOverflow`
evicts every entry including that one, leaving the buffer empty (`while
(total > MAX && length > 0)` never stops at a still-over-budget last entry). -/
theorem C1_theorem (ops : List ChatOp) (batch : List Msg) :
    sumLines (execChatOps ChatState.init (ops ++ [ChatOp.add batch])) ≤ MAX_VISIBLE_LINES ∧
    (∀ m : Msg, MAX_VISIBLE_LINES < calculateMessageLines m defaultContainerWidth →
      (execChatOps ChatState.init (ops ++ [ChatOp.add [m]])).visibleMessages = []) := by
  have hok := stateOK_execs ops
  constructor
  · rw [execChatOps, List.foldl_append]
    exact addMessages_sum_le _ batch hok
  · intro m hm
    rw [execChatOps, List.foldl_append]
    show ((execChatOps ChatState.init ops).addMessages [m]).visibleMessages = []
    set s := execChatOps ChatState.init ops with hs
    obtain ⟨hsum, hpos⟩ := hok
    have hpush := pushMessages_spec [m] s
    have hvis : (pushMessages s [m]).visibleMessages =
        s.visibleMessages ++
          [VisibleEntry.mk m (calculateMessageLines m defaultContainerWidth) false] := by
      rw [hpush]
      rfl
    have htot : (pushMessages s [m]).totalLineCount =
        ((s.visibleMessages ++
            [VisibleEntry.mk m (calculateMessageLines m defaultContainerWidth) false]).map
          VisibleEntry.lineCount).sum := by
      rw [hpush]
      simp only [List.map_append, List.sum_append, List.map_cons, List.map_nil,
        List.sum_cons, List.sum_nil]
      rw [hsum]
      rfl
    show (trimOverflow (pushMessages s [m]).visibleMessages
      (pushMessages s [m]).totalLineCount).1 = []
    rw [hvis, htot]
    exact trimOverflow_oversize s.visibleMessages _
      (fun x hx => le_trans (by norm_num) (hpos x hx)) hm _ rfl

/-- C1 — witness at `bigMsg` (line count 28 > 27). -/
theorem C1_witness :
    sumLines (execChatOps ChatState.init ([] ++ [ChatOp.add [bigMsg]])) ≤ MAX_VISIBLE_LINES ∧
    (execChatOps ChatState.init ([] ++ [ChatOp.add [bigMsg]])).visibleMessages = [] :=
  ⟨(C1_theorem [] [bigMsg]).1,
   (C1_theorem [] [bigMsg]).2 bigMsg
     (by rw [bigMsg_lineCount]; norm_num [MAX_VISIBLE_LINES])⟩

/-- C6 — confirmed.  At every boundary between public calls (any sequence of
`addMessages`, `markDeleted`, `clear` from construction), the stored
`totalLineCount` equals the sum of the `_lineCount` fields of the entries in
`visibleMessages`, and the pure queries `getState`/`getVisibleMessages` report
exactly that state. -/
theorem C6_theorem (ops : List ChatOp) :
    (execChatOps ChatState.init ops).totalLineCount =
      sumLines (execChatOps ChatState.init ops) ∧
    (execChatOps ChatState.init ops).getState.2.1 =
      sumLines (execChatOps ChatState.init ops) ∧
    (execChatOps ChatState.init ops).getVisibleMessages =
      (execChatOps ChatState.init ops).visibleMessages :=
  ⟨(stateOK_execs ops).1, (stateOK_execs ops).1, rfl⟩

/-- C8 — confirmed.  `markDeleted` with an identifier matching no visible
entry returns the state completely unchanged: same entry sequence, same
fields, same running total. -/
theorem C8_theorem (s : ChatState) (eventId : String)
    (h : ∀ e ∈ s.visibleMessages, e.msg.id ≠ eventId) :
    s.markDeleted eventId = s := by
  show ({ s with visibleMessages := markFirstDeleted s.visibleMessages eventId }) = s
  rw [markFirstDeleted_of_absent s.visibleMessages eventId h]

/-- C8 — witness: deleting the unknown id `"zzz"` from a one-entry buffer. -/
theorem C8_witness :
    (ChatState.mk [⟨msgA, 1, false⟩] 1).markDeleted "zzz" =
      ChatState.mk [⟨msgA, 1, false⟩] 1 :=
  C8_theorem _ "zzz" (by decide)

/-! ## Helper lemmas: `FrameScheduler` -/

theorem make_zero : FrameScheduler.make 0 = ⟨0, 0, 0⟩ := by
  simp only [FrameScheduler.make, frameDurationMs, FRAMERATE]
  norm_num

theorem make_1200_totalFrames : (FrameScheduler.make 1200).totalFrames = 36 := by
  simp only [FrameScheduler.make, frameDurationMs, FRAMERATE]
  norm_num

theorem make_totalFrames_nonneg (d : ℚ) (hd : 0 ≤ d) :
    0 ≤ (FrameScheduler.make d).totalFrames := by
  simp only [FrameScheduler.make]
  exact Int.ceil_nonneg (div_nonneg hd (by norm_num [frameDurationMs, FRAMERATE]))

theorem execSchedOps_totalFrames (ops : List SchedOp) :
    ∀ s : FrameScheduler, (execSchedOps s ops).totalFrames = s.totalFrames := by
  induction ops with
  | nil => intro s; rfl
  | cons op rest ih =>
    intro s
    show (execSchedOps (execSchedOp s op) rest).totalFrames = s.totalFrames
    rw [ih]
    cases op <;> rfl

theorem execSchedOps_skips_mono (ops : List SchedOp) (hops : nonNegSkips ops)
    (hso : skipsOnly ops) :
    ∀ s : FrameScheduler, s.currentFrame ≤ s.totalFrames →
      s.currentFrame ≤ (execSchedOps s ops).currentFrame ∧
      (execSchedOps s ops).currentFrame ≤ s.totalFrames := by
  induction ops with
  | nil => exact fun s h => ⟨le_rfl, h⟩
  | cons op rest ih =>
    intro s h
    cases op with
    | advance => exact absurd (List.mem_cons_self _ _) hso
    | skip c =>
      have hc : 0 ≤ c := hops c (List.mem_cons_self _ _)
      have hrest : nonNegSkips rest := fun x hx => hops x (List.mem_cons_of_mem _ hx)
      have hsorest : skipsOnly rest := fun hx => hso (List.mem_cons_of_mem _ hx)
      have hcur : s.currentFrame ≤ (s.skipFrames c).currentFrame ∧
          (s.skipFrames c).currentFrame ≤ (s.skipFrames c).totalFrames := by
        simp only [FrameScheduler.skipFrames]
        omega
      have := ih hrest hsorest (s.skipFrames c) hcur.2
      refine ⟨le_trans hcur.1 ?_, ?_⟩
      · exact this.1
      · show (execSchedOps (s.skipFrames c) rest).currentFrame ≤ s.totalFrames
        exact this.2

/-! ## Claim theorems: `FrameScheduler` -/

/-- C3 — counterexample.  From a zero-duration stream (`totalFrames = 0`),
the mutator `advance()` — also reachable from the driving loop's initial
frame — pushes the cursor to 1, strictly above `totalFrames`, so the cursor
does not stay within `[0, totalFrames]`; moreover a subsequent non-negative
`skipFrames(0)` clamps the cursor back down from 1 to 0, a decrement. -/
theorem C3_counterexample :
    (execSchedOps (FrameScheduler.make 0) [SchedOp.advance]).currentFrame = 1 ∧
    (execSchedOps (FrameScheduler.make 0) [SchedOp.advance]).totalFrames = 0 ∧
    ¬((execSchedOps (FrameScheduler.make 0) [SchedOp.advance]).currentFrame ≤
        (execSchedOps (FrameScheduler.make 0) [SchedOp.advance]).totalFrames) ∧
    (execSchedOps (FrameScheduler.make 0)
        [SchedOp.advance, SchedOp.skip 0]).currentFrame = 0 := by
  rw [make_zero]
  decide

/-- C3 — amended.  For sequences built only from `skipFrames` with
non-negative counts, the cursor stays within `[0, totalFrames]` and never
decreases as the sequence is extended; `skipFrames` — but not `advance` — is
the mutator that clamps, so the cursor never exceeds `totalFrames` through
it; `advance` always strictly increments, without clamping, and can push the
cursor past `totalFrames` (after which a `skipFrames` snaps it back down). -/
theorem C3_theorem (d : ℚ) (ops extra : List SchedOp) (hd : 0 ≤ d)
    (hops : nonNegSkips (ops ++ extra)) (hso : skipsOnly (ops ++ extra)) :
    0 ≤ (execSchedOps (FrameScheduler.make d) ops).currentFrame ∧
    (execSchedOps (FrameScheduler.make d) ops).currentFrame ≤
      (FrameScheduler.make d).totalFrames ∧
    (execSchedOps (FrameScheduler.make d) ops).currentFrame ≤
      (execSchedOps (FrameScheduler.make d) (ops ++ extra)).currentFrame ∧
    (∀ s : FrameScheduler, ∀ c : ℤ, (s.skipFrames c).currentFrame ≤ s.totalFrames) ∧
    (∀ s : FrameScheduler, s.currentFrame < s.advance.currentFrame) := by
  have hops1 : nonNegSkips ops := fun c hc =>
    hops c (List.mem_append_left _ hc)
  have hso1 : skipsOnly ops := fun hx => hso (List.mem_append_left _ hx)
  have hops2 : nonNegSkips extra := fun c hc =>
    hops c (List.mem_append_right _ hc)
  have hso2 : skipsOnly extra := fun hx => hso (List.mem_append_right _ hx)
  have hstart : (FrameScheduler.make d).currentFrame ≤ (FrameScheduler.make d).totalFrames := by
    have := make_totalFrames_nonneg d hd
    simp only [FrameScheduler.make] at *
    omega
  have h1 := execSchedOps_skips_mono ops hops1 hso1 (FrameScheduler.make d) hstart
  have h0 : (FrameScheduler.make d).currentFrame = 0 := rfl
  refine ⟨by omega, h1.2, ?_, ?_, ?_⟩
  · have happ : execSchedOps (FrameScheduler.make d) (ops ++ extra) =
        execSchedOps (execSchedOps (FrameScheduler.make d) ops) extra := by
      simp [execSchedOps, List.foldl_append]
    rw [happ]
    have htot := execSchedOps_totalFrames ops (FrameScheduler.make d)
    exact (execSchedOps_skips_mono extra hops2 hso2
      (execSchedOps (FrameScheduler.make d) ops) (by omega)).1
  · intro s c
    simp only [FrameScheduler.skipFrames]
    omega
  · intro s
    simp only [FrameScheduler.advance]
    omega

/-- C3 — witness: duration 1200 ms, `skipFrames(10)` then `skipFrames(100)`. -/
theorem C3_witness :
    0 ≤ (execSchedOps (FrameScheduler.make 1200) [SchedOp.skip 10]).currentFrame ∧
    (execSchedOps (FrameScheduler.make 1200) [SchedOp.skip 10]).currentFrame ≤
      (FrameScheduler.make 1200).totalFrames ∧
    (execSchedOps (FrameScheduler.make 1200) [SchedOp.skip 10]).currentFrame ≤
      (execSchedOps (FrameScheduler.make 1200)
        ([SchedOp.skip 10] ++ [SchedOp.skip 100])).currentFrame ∧
    (∀ s : FrameScheduler, ∀ c : ℤ, (s.skipFrames c).currentFrame ≤ s.totalFrames) ∧
    (∀ s : FrameScheduler, s.currentFrame < s.advance.currentFrame) :=
  C3_theorem 1200 [SchedOp.skip 10] [SchedOp.skip 100] (by norm_num)
    (by
      intro c hc
      simp only [List.cons_append, List.nil_append, List.mem_cons,
        List.not_mem_nil, or_false] at hc
      rcases hc with hc | hc <;> · injection hc with h; omega)
    (show SchedOp.advance ∉ [SchedOp.skip 10] ++ [SchedOp.skip 100] from by decide)

/-- C4 — counterexample.  When no frames remain (`currentFrame = totalFrames`,
here a zero-duration stream at cursor 0), `getFrameCountUntil` of a finite
timestamp returns `min(max(1, …), totalFrames - currentFrame) = 0`, not ≥ 1. -/
theorem C4_counterexample :
    (FrameScheduler.make 0).getFrameCountUntil (some 500) = 0 ∧
    ¬(1 ≤ (FrameScheduler.make 0).getFrameCountUntil (some 500)) := by
  rw [make_zero]
  simp only [FrameScheduler.getFrameCountUntil, FrameScheduler.getCurrentTimeMs]
  omega

/-- C4 — amended.  For every finite `nextEventTimeMs`, `getFrameCountUntil`
returns at least 1 whenever at least one frame remains
(`currentFrame < totalFrames`); when none remain, the remaining-frames clamp
`min(…, totalFrames - currentFrame)` makes it return at most 0 instead. -/
theorem C4_theorem (s : FrameScheduler) (t : ℚ)
    (h : s.currentFrame < s.totalFrames) :
    1 ≤ s.getFrameCountUntil (some t) ∧
    s.getFrameCountUntil (some t) ≤ s.totalFrames - s.currentFrame := by
  simp only [FrameScheduler.getFrameCountUntil]
  omega

/-- C4 — witness: a 1200 ms stream at cursor 0 (36 frames remain), event at
t = 500. -/
theorem C4_witness :
    (FrameScheduler.make 1200).currentFrame < (FrameScheduler.make 1200).totalFrames ∧
    1 ≤ (FrameScheduler.make 1200).getFrameCountUntil (some 500) := by
  have h : (FrameScheduler.make 1200).currentFrame < (FrameScheduler.make 1200).totalFrames := by
    rw [make_1200_totalFrames]
    norm_num [FrameScheduler.make]
  exact ⟨h, (C4_theorem (FrameScheduler.make 1200) 500 h).1⟩

/-! ## Helper lemmas: the line-footprint estimator -/

theorem AVG_CHAR_WIDTH_PX_nonneg : 0 ≤ AVG_CHAR_WIDTH_PX := by
  norm_num [AVG_CHAR_WIDTH_PX, FONT_SIZE_PX]

theorem segmentWidth_nonneg (seg : Segment) : 0 ≤ segmentWidth seg := by
  cases seg with
  | text v =>
    simp only [segmentWidth]
    exact mul_nonneg (by positivity) AVG_CHAR_WIDTH_PX_nonneg
  | emoji i n => norm_num [segmentWidth, EMOJI_WIDTH_PX, FONT_SIZE_PX]

/-- The username-plus-colon term of `contentWidth` is monotone in the name
length (the source skips it entirely for a falsy empty name). -/
theorem nameTerm_mono (n k : ℕ) :
    (if n = 0 then (0 : ℚ) else (n + 2) * AVG_CHAR_WIDTH_PX) ≤
      (if n + k = 0 then (0 : ℚ) else ((n + k : ℕ) + 2) * AVG_CHAR_WIDTH_PX) := by
  rcases Nat.eq_zero_or_pos n with hn | hn
  · subst hn
    simp only [if_pos rfl, zero_add]
    rcases Nat.eq_zero_or_pos k with hk | hk
    · simp [hk]
    · rw [if_neg (Nat.pos_iff_ne_zero.mp hk)]
      exact mul_nonneg (by positivity) AVG_CHAR_WIDTH_PX_nonneg
  · rw [if_neg (by omega), if_neg (by omega)]
    refine mul_le_mul_of_nonneg_right ?_ AVG_CHAR_WIDTH_PX_nonneg
    push_cast
    linarith [Nat.cast_nonneg (α := ℚ) k]

theorem calculateMessageLines_mono (m m' : Msg) (w : ℚ) (hw : 0 < w)
    (h : contentWidth m ≤ contentWidth m') :
    calculateMessageLines m w ≤ calculateMessageLines m' w :=
  max_le_max le_rfl (Int.ceil_le_ceil ((div_le_div_iff_of_pos_right hw).mpr h))

theorem contentWidth_add_badge (m : Msg) (a : Author) (b : String)
    (ha : m.author = some a) :
    contentWidth m ≤
      contentWidth { m with author := some { a with badges := a.badges ++ [b] } } := by
  simp only [contentWidth, ha, List.length_append, List.length_cons, List.length_nil]
  refine add_le_add (add_le_add (add_le_add ?_ le_rfl) le_rfl) le_rfl
  have hb : (0 : ℚ) ≤ BADGE_WIDTH_PX := by norm_num [BADGE_WIDTH_PX, FONT_SIZE_PX]
  push_cast
  nlinarith [hb]

theorem contentWidth_extend_name (m : Msg) (a : Author) (ext : String)
    (ha : m.author = some a) :
    contentWidth m ≤
      contentWidth { m with author := some { a with name := a.name ++ ext } } := by
  simp only [contentWidth, ha, String.length_append]
  refine add_le_add (add_le_add (add_le_add le_rfl ?_) le_rfl) le_rfl
  exact_mod_cast nameTerm_mono a.name.length ext.length

theorem contentWidth_add_segment (m : Msg) (c : Content) (seg : Segment)
    (hc : m.content = some c) :
    contentWidth m ≤
      contentWidth { m with content := some { c with segments := c.segments ++ [seg] } } := by
  simp only [contentWidth, hc, List.map_append, List.sum_append, List.map_cons,
    List.map_nil, List.sum_cons, List.sum_nil, add_zero]
  refine add_le_add (add_le_add le_rfl ?_) le_rfl
  have := segmentWidth_nonneg seg
  linarith

theorem contentWidth_extend_text (m : Msg) (c : Content) (pre post : List Segment)
    (v ext : String) (hc : m.content = some c)
    (hsegs : c.segments = pre ++ Segment.text v :: post) :
    contentWidth m ≤
      contentWidth
        { m with content := some { c with segments := pre ++ Segment.text (v ++ ext) :: post } } := by
  simp only [contentWidth, hc, hsegs, List.map_append, List.sum_append,
    List.map_cons, List.sum_cons]
  refine add_le_add (add_le_add le_rfl (add_le_add le_rfl (add_le_add ?_ le_rfl))) le_rfl
  simp only [segmentWidth, String.length_append]
  refine mul_le_mul_of_nonneg_right ?_ AVG_CHAR_WIDTH_PX_nonneg
  push_cast
  linarith [Nat.cast_nonneg (α := ℚ) ext.length]

/-- C7 — confirmed (for positive container widths, the estimator's intended
domain; the configured width is 376).  `calculateMessageLines` returns an
integer ≥ 1, is at least the fractional estimate `contentWidth / width`
(rounds up), is deterministic, and is monotone under adding a badge,
lengthening the author name, appending a text or emoji segment, and
lengthening a text segment. -/
theorem C7_theorem (m : Msg) (w : ℚ) (hw : 0 < w) :
    1 ≤ calculateMessageLines m w ∧
    contentWidth m / w ≤ (calculateMessageLines m w : ℚ) ∧
    (∀ (m₂ : Msg) (w₂ : ℚ), m = m₂ → w = w₂ →
      calculateMessageLines m w = calculateMessageLines m₂ w₂) ∧
    (∀ (a : Author) (b : String), m.author = some a →
      calculateMessageLines m w ≤
        calculateMessageLines { m with author := some { a with badges := a.badges ++ [b] } } w) ∧
    (∀ (a : Author) (ext : String), m.author = some a →
      calculateMessageLines m w ≤
        calculateMessageLines { m with author := some { a with name := a.name ++ ext } } w) ∧
    (∀ (c : Content) (seg : Segment), m.content = some c →
      calculateMessageLines m w ≤
        calculateMessageLines
          { m with content := some { c with segments := c.segments ++ [seg] } } w) ∧
    (∀ (c : Content) (pre post : List Segment) (v ext : String),
      m.content = some c → c.segments = pre ++ Segment.text v :: post →
      calculateMessageLines m w ≤
        calculateMessageLines
          { m with content := some { c with segments := pre ++ Segment.text (v ++ ext) :: post } } w) := by
  refine ⟨le_max_left _ _, ?_, ?_, ?_, ?_, ?_, ?_⟩
  · calc contentWidth m / w ≤ (⌈contentWidth m / w⌉ : ℚ) := Int.le_ceil _
      _ ≤ ((max 1 ⌈contentWidth m / w⌉ : ℤ) : ℚ) := by exact_mod_cast le_max_right _ _
  · rintro m₂ w₂ rfl rfl; rfl
  · intro a b ha
    exact calculateMessageLines_mono _ _ w hw (contentWidth_add_badge m a b ha)
  · intro a ext ha
    exact calculateMessageLines_mono _ _ w hw (contentWidth_extend_name m a ext ha)
  · intro c seg hc
    exact calculateMessageLines_mono _ _ w hw (contentWidth_add_segment m c seg hc)
  · intro c pre post v ext hc hsegs
    exact calculateMessageLines_mono _ _ w hw
      (contentWidth_extend_text m c pre post v ext hc hsegs)

/-- C7 — witness at `richMsg` and the configured width 376. -/
theorem C7_witness :
    (0 : ℚ) < 376 ∧
    (1 ≤ calculateMessageLines richMsg 376 ∧
     contentWidth richMsg / 376 ≤ (calculateMessageLines richMsg 376 : ℚ) ∧
     (∀ (m₂ : Msg) (w₂ : ℚ), richMsg = m₂ → (376 : ℚ) = w₂ →
       calculateMessageLines richMsg 376 = calculateMessageLines m₂ w₂) ∧
     (∀ (a : Author) (b : String), richMsg.author = some a →
       calculateMessageLines richMsg 376 ≤
         calculateMessageLines
           { richMsg with author := some { a with badges := a.badges ++ [b] } } 376) ∧
     (∀ (a : Author) (ext : String), richMsg.author = some a →
       calculateMessageLines richMsg 376 ≤
         calculateMessageLines
           { richMsg with author := some { a with name := a.name ++ ext } } 376) ∧
     (∀ (c : Content) (seg : Segment), richMsg.content = some c →
       calculateMessageLines richMsg 376 ≤
         calculateMessageLines
           { richMsg with content := some { c with segments := c.segments ++ [seg] } } 376) ∧
     (∀ (c : Content) (pre post : List Segment) (v ext : String),
       richMsg.content = some c → c.segments = pre ++ Segment.text v :: post →
       calculateMessageLines richMsg 376 ≤
         calculateMessageLines
           { richMsg with
             content := some { c with segments := pre ++ Segment.text (v ++ ext) :: post } } 376)) :=
  ⟨by norm_num, C7_theorem richMsg 376 (by norm_num)⟩

/-! ## Helper lemmas: `MessageBatcher` -/

theorem takeBatch_eq_take (l : List Msg) (w : ℚ) :
    ∀ c : Nat, ∃ n, takeBatch l w c = l.take n := by
  induction l with
  | nil => exact fun c => ⟨0, rfl⟩
  | cons m rest ih =>
    intro c
    by_cases hts : m.timestamp_ms > w
    · exact ⟨0, by simp [takeBatch, hts]⟩
    · by_cases hcap : c ≤ 1
      · exact ⟨1, by simp [takeBatch, hts, hcap]⟩
      · obtain ⟨n, hn⟩ := ih (c - 1)
        exact ⟨n + 1, by simp [takeBatch, hts, hcap, hn]⟩

theorem takeBatch_ne_nil (m : Msg) (rest : List Msg) (w : ℚ) (c : Nat)
    (hts : m.timestamp_ms ≤ w) : takeBatch (m :: rest) w c ≠ [] := by
  simp only [takeBatch, if_neg (not_lt.mpr hts)]
  split <;> simp

theorem take_self_length {α : Type} (l : List α) (n : ℕ) :
    l.take n = l.take (l.take n).length := by
  rw [List.length_take]
  rcases le_total n l.length with h | h
  · rw [min_eq_left h]
  · rw [min_eq_right h, List.take_of_length_le h, List.take_of_length_le le_rfl]

theorem take_drop_splice {α : Type} (l : List α) (i j k : ℕ) (hij : i ≤ j)
    (hjk : j ≤ k) :
    (l.drop i).take (j - i) ++ (l.drop j).take (k - j) = (l.drop i).take (k - i) := by
  have h1 : k - i = (j - i) + (k - j) := by omega
  have h2 : i + (j - i) = j := by omega
  rw [h1, List.take_add, List.drop_drop, h2]

theorem getNextBatch_messages (b : MessageBatcher) (t : ℚ) :
    (b.getNextBatch t).2.2.messages = b.messages := rfl

theorem getNextBatch_index (b : MessageBatcher) (t : ℚ) :
    (b.getNextBatch t).2.2.currentIndex = b.currentIndex + (b.getNextBatch t).1.length := rfl

theorem getNextBatch_batch_eq_take (b : MessageBatcher) (t : ℚ) :
    (b.getNextBatch t).1 =
      (b.messages.drop b.currentIndex).take (b.getNextBatch t).1.length := by
  obtain ⟨n, hn⟩ := takeBatch_eq_take (b.messages.drop b.currentIndex)
    (t + BATCH_WINDOW_MS) BATCH_MAX_MESSAGES
  show takeBatch (b.messages.drop b.currentIndex) (t + BATCH_WINDOW_MS) BATCH_MAX_MESSAGES =
    (b.messages.drop b.currentIndex).take
      (takeBatch (b.messages.drop b.currentIndex) (t + BATCH_WINDOW_MS) BATCH_MAX_MESSAGES).length
  rw [hn]
  exact take_self_length _ n

theorem runBatches_spec (ts : List ℚ) :
    ∀ b : MessageBatcher,
      (runBatches b ts).2.messages = b.messages ∧
      b.currentIndex ≤ (runBatches b ts).2.currentIndex ∧
      (runBatches b ts).1.flatten =
        (b.messages.drop b.currentIndex).take
          ((runBatches b ts).2.currentIndex - b.currentIndex) := by
  induction ts with
  | nil =>
    intro b
    exact ⟨rfl, le_rfl, by simp [runBatches]⟩
  | cons t rest ih =>
    intro b
    obtain ⟨hm, hmono, hjoin⟩ := ih (b.getNextBatch t).2.2
    have hstate : (runBatches b (t :: rest)).2 = (runBatches (b.getNextBatch t).2.2 rest).2 := rfl
    have hbatches : (runBatches b (t :: rest)).1 =
        (b.getNextBatch t).1 :: (runBatches (b.getNextBatch t).2.2 rest).1 := rfl
    have hidx := getNextBatch_index b t
    refine ⟨by rw [hstate, hm, getNextBatch_messages], by rw [hstate]; omega, ?_⟩
    rw [hstate, hbatches, List.flatten_cons]
    rw [hjoin, getNextBatch_messages]
    have hsplice := take_drop_splice b.messages b.currentIndex
      ((b.getNextBatch t).2.2.currentIndex) ((runBatches (b.getNextBatch t).2.2 rest).2.currentIndex)
      (by omega) hmono
    rw [← hsplice]
    congr 1
    rw [getNextBatch_batch_eq_take b t]
    congr 1
    omega

theorem getNextBatch_progress (b : MessageBatcher) (t : ℚ)
    (hlen : b.currentIndex < b.messages.length)
    (hts : (b.messages.get ⟨b.currentIndex, hlen⟩).timestamp_ms ≤ t + BATCH_WINDOW_MS) :
    b.currentIndex < (b.getNextBatch t).2.2.currentIndex := by
  rw [getNextBatch_index]
  have hdrop : b.messages.drop b.currentIndex =
      b.messages.get ⟨b.currentIndex, hlen⟩ :: b.messages.drop (b.currentIndex + 1) := by
    rw [List.drop_eq_getElem_cons hlen]
    rfl
  have hne : (b.getNextBatch t).1 ≠ [] := by
    show takeBatch (b.messages.drop b.currentIndex) (t + BATCH_WINDOW_MS)
      BATCH_MAX_MESSAGES ≠ []
    rw [hdrop]
    exact takeBatch_ne_nil _ _ _ _ hts
  have := List.length_pos.mpr hne
  omega

theorem runBatches_replicate_reaches (msgs : List Msg)
    (hsort : List.Sorted (fun a b : Msg => a.timestamp_ms ≤ b.timestamp_ms) msgs)
    (t : ℚ) (i : ℕ) (hi : i < msgs.length)
    (hts : (msgs.get ⟨i, hi⟩).timestamp_ms ≤ t + BATCH_WINDOW_MS) :
    ∀ (n : ℕ) (b : MessageBatcher), b.messages = msgs → b.currentIndex ≤ i →
      min (i + 1) (b.currentIndex + n) ≤
        (runBatches b (List.replicate n t)).2.currentIndex := by
  intro n
  induction n with
  | zero =>
    intro b hbm hbi
    have : (runBatches b (List.replicate 0 t)).2 = b := rfl
    rw [this]
    omega
  | succ n ih =>
    rintro ⟨bm, bi⟩ hbm hbi
    change bm = msgs at hbm
    subst hbm
    change bi ≤ i at hbi
    have hlen : bi < bm.length := by omega
    have hcur : (bm.get ⟨bi, hlen⟩).timestamp_ms ≤ t + BATCH_WINDOW_MS := by
      rcases lt_or_eq_of_le hbi with hlt | heq
      · have hrel := List.Sorted.rel_get_of_lt hsort
          (a := (⟨bi, hlen⟩ : Fin bm.length)) (b := ⟨i, hi⟩)
          (by simpa [Fin.lt_def] using hlt)
        exact le_trans hrel hts
      · subst heq
        exact hts
    have hprog := getNextBatch_progress ⟨bm, bi⟩ t hlen hcur
    have hstate : (runBatches ⟨bm, bi⟩ (List.replicate (n + 1) t)).2 =
        (runBatches ((MessageBatcher.mk bm bi).getNextBatch t).2.2
          (List.replicate n t)).2 := by
      rw [List.replicate_succ]
      rfl
    have hb1m : ((MessageBatcher.mk bm bi).getNextBatch t).2.2.messages = bm := rfl
    rw [hstate]
    rcases le_or_lt ((MessageBatcher.mk bm bi).getNextBatch t).2.2.currentIndex i
      with hle | hgt
    · have := ih ((MessageBatcher.mk bm bi).getNextBatch t).2.2 hb1m hle
      omega
    · have hmono := (runBatches_spec (List.replicate n t)
        ((MessageBatcher.mk bm bi).getNextBatch t).2.2).2.1
      omega

/-! ## Claim theorems: `MessageBatcher` and the end-to-end scenarios -/

/-- C5 — confirmed.  Over any sequence of `getNextBatch` calls with no reset:
the cursor never decreases as the call sequence is extended; the
concatenation of all returned batches, in order, is exactly the initial
segment of the message list up to the final cursor, so each event appears in
at most one batch, in original order, never twice; and (for a
timestamp-sorted list) once a call time's window `t + BATCH_WINDOW_MS`
reaches an event's timestamp, enough repeated calls at that time deliver it:
after `msgs.length` calls the cursor has passed the event. -/
theorem C5_theorem (msgs : List Msg)
    (hsort : List.Sorted (fun a b : Msg => a.timestamp_ms ≤ b.timestamp_ms) msgs) :
    (∀ ts₁ ts₂ : List ℚ,
      (runBatches (MessageBatcher.make msgs) ts₁).2.currentIndex ≤
        (runBatches (MessageBatcher.make msgs) (ts₁ ++ ts₂)).2.currentIndex) ∧
    (∀ ts : List ℚ,
      (runBatches (MessageBatcher.make msgs) ts).1.flatten =
        msgs.take ((runBatches (MessageBatcher.make msgs) ts).2.currentIndex)) ∧
    (∀ (t : ℚ) (i : ℕ) (hi : i < msgs.length),
      (msgs.get ⟨i, hi⟩).timestamp_ms ≤ t + BATCH_WINDOW_MS →
      i < (runBatches (MessageBatcher.make msgs)
            (List.replicate msgs.length t)).2.currentIndex ∧
      msgs.get ⟨i, hi⟩ ∈ (runBatches (MessageBatcher.make msgs)
            (List.replicate msgs.length t)).1.flatten) := by
  have hrunapp : ∀ (b : MessageBatcher) (ts₁ ts₂ : List ℚ),
      (runBatches b (ts₁ ++ ts₂)).2 = (runBatches (runBatches b ts₁).2 ts₂).2 := by
    intro b ts₁ ts₂
    induction ts₁ generalizing b with
    | nil => rfl
    | cons t rest ih => exact ih (b.getNextBatch t).2.2
  refine ⟨?_, ?_, ?_⟩
  · intro ts₁ ts₂
    rw [hrunapp]
    exact (runBatches_spec ts₂ (runBatches (MessageBatcher.make msgs) ts₁).2).2.1
  · intro ts
    have h := (runBatches_spec ts (MessageBatcher.make msgs)).2.2
    simpa [MessageBatcher.make] using h
  · intro t i hi hts
    have hreach := runBatches_replicate_reaches msgs hsort t i hi hts msgs.length
      (MessageBatcher.make msgs) rfl (Nat.zero_le i)
    have hcursor : i < (runBatches (MessageBatcher.make msgs)
        (List.replicate msgs.length t)).2.currentIndex := by
      have : min (i + 1) (0 + msgs.length) = i + 1 := by omega
      omega
    refine ⟨hcursor, ?_⟩
    have hflat := (runBatches_spec (List.replicate msgs.length t)
      (MessageBatcher.make msgs)).2.2
    rw [hflat]
    show msgs.get ⟨i, hi⟩ ∈ (msgs.drop 0).take
      ((runBatches (MessageBatcher.make msgs) (List.replicate msgs.length t)).2.currentIndex - 0)
    rw [List.drop_zero, Nat.sub_zero]
    have hi' : i < (msgs.take ((runBatches (MessageBatcher.make msgs)
        (List.replicate msgs.length t)).2.currentIndex)).length := by
      rw [List.length_take]
      omega
    have hget : (msgs.take ((runBatches (MessageBatcher.make msgs)
        (List.replicate msgs.length t)).2.currentIndex)).get ⟨i, hi'⟩ = msgs.get ⟨i, hi⟩ := by
      simp [List.get_eq_getElem, List.getElem_take]
    have hmem := List.get_mem (msgs.take ((runBatches (MessageBatcher.make msgs)
        (List.replicate msgs.length t)).2.currentIndex)) i hi'
    rw [hget] at hmem
    exact hmem

/-- C5 — witness: the three scenario messages, each delivered within
`length = 3` calls at time 1200. -/
theorem C5_witness :
    List.Sorted (fun a b : Msg => a.timestamp_ms ≤ b.timestamp_ms) scenarioMsgs ∧
    ((∀ ts₁ ts₂ : List ℚ,
      (runBatches (MessageBatcher.make scenarioMsgs) ts₁).2.currentIndex ≤
        (runBatches (MessageBatcher.make scenarioMsgs) (ts₁ ++ ts₂)).2.currentIndex) ∧
    (∀ ts : List ℚ,
      (runBatches (MessageBatcher.make scenarioMsgs) ts).1.flatten =
        scenarioMsgs.take
          ((runBatches (MessageBatcher.make scenarioMsgs) ts).2.currentIndex)) ∧
    (∀ (t : ℚ) (i : ℕ) (hi : i < scenarioMsgs.length),
      (scenarioMsgs.get ⟨i, hi⟩).timestamp_ms ≤ t + BATCH_WINDOW_MS →
      i < (runBatches (MessageBatcher.make scenarioMsgs)
            (List.replicate scenarioMsgs.length t)).2.currentIndex ∧
      scenarioMsgs.get ⟨i, hi⟩ ∈ (runBatches (MessageBatcher.make scenarioMsgs)
            (List.replicate scenarioMsgs.length t)).1.flatten)) :=
  ⟨by decide, C5_theorem scenarioMsgs (by decide)⟩

/-- C2 — confirmed.  The §8 scenario with the configured framerate 30,
window 500 ms, cap 12: `getNextBatch(0)` returns the events at 0 and 400
with `nextBatchTimeMs = 1200`; the scheduler built from
`streamDurationMs = 1200` has 36 total frames and
`getFrameCountUntil(1200)` at cursor 0 is 36; after `skipFrames(36)`,
`getNextBatch(1200)` returns the event at 1200 with `nextBatchTimeMs =
null`, and `getFrameCountUntil(null)` is `totalFrames - currentFrame` (= 0
here). -/
theorem C2_theorem :
    ((MessageBatcher.make scenarioMsgs).getNextBatch 0).1 = [msgA, msgB] ∧
    ((MessageBatcher.make scenarioMsgs).getNextBatch 0).2.1 = some 1200 ∧
    (FrameScheduler.make (MessageBatcher.make scenarioMsgs).streamDurationMs).totalFrames
      = 36 ∧
    (FrameScheduler.make
        (MessageBatcher.make scenarioMsgs).streamDurationMs).getFrameCountUntil
      (some 1200) = 36 ∧
    (((MessageBatcher.make scenarioMsgs).getNextBatch 0).2.2.getNextBatch 1200).1
      = [msgC] ∧
    (((MessageBatcher.make scenarioMsgs).getNextBatch 0).2.2.getNextBatch 1200).2.1
      = none ∧
    ((FrameScheduler.make
        (MessageBatcher.make scenarioMsgs).streamDurationMs).skipFrames
          36).getFrameCountUntil none =
      ((FrameScheduler.make
          (MessageBatcher.make scenarioMsgs).streamDurationMs).skipFrames
            36).totalFrames -
        ((FrameScheduler.make
            (MessageBatcher.make scenarioMsgs).streamDurationMs).skipFrames
              36).currentFrame ∧
    ((FrameScheduler.make
        (MessageBatcher.make scenarioMsgs).streamDurationMs).skipFrames
          36).getFrameCountUntil none = 0 := by
  have hd : (MessageBatcher.make scenarioMsgs).streamDurationMs = 1200 := rfl
  have h36 : (FrameScheduler.make 1200).totalFrames = 36 := make_1200_totalFrames
  have e1 : ((MessageBatcher.make scenarioMsgs).getNextBatch 0).1 = [msgA, msgB] := by
    show takeBatch scenarioMsgs (0 + BATCH_WINDOW_MS) BATCH_MAX_MESSAGES = [msgA, msgB]
    norm_num [takeBatch, scenarioMsgs, msgA, msgB, msgC, BATCH_WINDOW_MS, BATCH_MAX_MESSAGES]
  have e2 : ((MessageBatcher.make scenarioMsgs).getNextBatch 0).2.1 = some 1200 := by
    simp only [MessageBatcher.getNextBatch, MessageBatcher.make, e1]
    norm_num [takeBatch, scenarioMsgs, msgA, msgB, msgC, BATCH_WINDOW_MS, BATCH_MAX_MESSAGES]
  have hstate : ((MessageBatcher.make scenarioMsgs).getNextBatch 0).2.2 =
      MessageBatcher.mk scenarioMsgs 2 := by
    simp only [MessageBatcher.getNextBatch, MessageBatcher.make, e1]
    norm_num [takeBatch, scenarioMsgs, msgA, msgB, msgC, BATCH_WINDOW_MS, BATCH_MAX_MESSAGES]
  have e3 : (((MessageBatcher.make scenarioMsgs).getNextBatch 0).2.2.getNextBatch 1200).1
      = [msgC] := by
    rw [hstate]
    show takeBatch (scenarioMsgs.drop 2) (1200 + BATCH_WINDOW_MS) BATCH_MAX_MESSAGES = [msgC]
    norm_num [takeBatch, scenarioMsgs, msgA, msgB, msgC, BATCH_WINDOW_MS, BATCH_MAX_MESSAGES]
  have e4 : (((MessageBatcher.make scenarioMsgs).getNextBatch 0).2.2.getNextBatch 1200).2.1
      = none := by
    rw [hstate]
    simp only [MessageBatcher.getNextBatch]
    norm_num [takeBatch, scenarioMsgs, msgA, msgB, msgC, BATCH_WINDOW_MS, BATCH_MAX_MESSAGES]
  refine ⟨e1, e2, by rw [hd]; exact h36, ?_, e3, e4, rfl, ?_⟩
  · rw [hd]
    simp only [FrameScheduler.getFrameCountUntil, FrameScheduler.getCurrentTimeMs,
      FrameScheduler.make, frameDurationMs, FRAMERATE]
    norm_num
  · rw [hd]
    simp only [FrameScheduler.getFrameCountUntil, FrameScheduler.skipFrames,
      FrameScheduler.make, frameDurationMs, FRAMERATE]
    norm_num

/-- C9 — confirmed.  An empty event list is valid: `streamDurationMs` is 0,
the scheduler built from it has `totalFrames = 0`, `isDone()` is already true
at the initial cursor 0, `getFrameCountUntil(null)` asks for 0 further
duplicated frames, and every batch is empty with `nextBatchTimeMs = null`. -/
theorem C9_theorem :
    (MessageBatcher.make []).streamDurationMs = 0 ∧
    (FrameScheduler.make (MessageBatcher.make []).streamDurationMs).totalFrames = 0 ∧
    (FrameScheduler.make (MessageBatcher.make []).streamDurationMs).currentFrame = 0 ∧
    (FrameScheduler.make (MessageBatcher.make []).streamDurationMs).isDone = true ∧
    (FrameScheduler.make
        (MessageBatcher.make []).streamDurationMs).getFrameCountUntil none = 0 ∧
    ((MessageBatcher.make []).getNextBatch 0).1 = [] ∧
    ((MessageBatcher.make []).getNextBatch 0).2.1 = none := by
  have hd : (MessageBatcher.make []).streamDurationMs = 0 := rfl
  rw [hd, make_zero]
  exact ⟨rfl, rfl, rfl, rfl, rfl, rfl, rfl⟩

/-- C10 — confirmed.  For a non-empty sorted list, `streamDurationMs` is the
final message's `timestamp_ms` and `totalFrames =
ceil(lastTimestamp / frameDurationMs)`; hence a stream whose messages all
carry timestamp 0 yields `totalFrames = 0` and a scheduler that is done
before any of those messages can be held on screen. -/
theorem C10_theorem (msgs : List Msg) (h : msgs ≠ []) :
    (MessageBatcher.make msgs).streamDurationMs = (msgs.getLast h).timestamp_ms ∧
    (FrameScheduler.make (MessageBatcher.make msgs).streamDurationMs).totalFrames =
      ⌈(msgs.getLast h).timestamp_ms / frameDurationMs⌉ ∧
    ((∀ m ∈ msgs, m.timestamp_ms = 0) →
      (FrameScheduler.make (MessageBatcher.make msgs).streamDurationMs).totalFrames = 0 ∧
      (FrameScheduler.make (MessageBatcher.make msgs).streamDurationMs).isDone = true) := by
  have hdur : (MessageBatcher.make msgs).streamDurationMs = (msgs.getLast h).timestamp_ms := by
    show MessageBatcher.streamDurationMs ⟨msgs, 0⟩ = _
    rw [MessageBatcher.streamDurationMs]
    simp [List.getLast?_eq_getLast msgs h]
  refine ⟨hdur, by rw [hdur]; rfl, ?_⟩
  intro hzero
  have hlast : (msgs.getLast h).timestamp_ms = 0 := hzero _ (List.getLast_mem h)
  rw [hdur, hlast, make_zero]
  exact ⟨rfl, rfl⟩

/-- C10 — witness: the single message `msgA` at timestamp 0. -/
theorem C10_witness :
    (MessageBatcher.make [msgA]).streamDurationMs =
      (([msgA] : List Msg).getLast (List.cons_ne_nil msgA [])).timestamp_ms ∧
    (FrameScheduler.make (MessageBatcher.make [msgA]).streamDurationMs).totalFrames = 0 ∧
    (FrameScheduler.make (MessageBatcher.make [msgA]).streamDurationMs).isDone = true :=
  ⟨(C10_theorem [msgA] (List.cons_ne_nil msgA [])).1,
   (C10_theorem [msgA] (List.cons_ne_nil msgA [])).2.2
     (by
       intro m hm
       rcases List.mem_singleton.mp hm with rfl
       rfl)⟩

end ChatRenderer
